import Mathlib

/-!
Verification of the learning core of the `coach` repository
(`agents/actor_critic_agent.py` and `agents/clipped_ppo_agent.py`):
discounted returns, generalized advantage estimation, per-episode
advantage filling, and the minibatch partition of `train_network`.

Real numbers of the Python code are modelled as rationals `ℚ`,
so every algebraic identity is exact.
-/

namespace Coach

/-- First-order IIR filter `scipy.signal.lfilter([1], [1, -γ], ·)`:
the forward recurrence `y[n] = x[n] + γ * y[n-1]`, with `prev` the
value of `y[-1]` (the initial filter state, `0` at the top call). -/
def lfilterFirstOrder (γ : ℚ) : ℚ → List ℚ → List ℚ
  | _, [] => []
  | prev, a :: as =>
    let y := a + γ * prev
    y :: lfilterFirstOrder γ y as

/-- `ActorCriticAgent.discount(x, gamma)`:
`scipy.signal.lfilter([1], [1, -gamma], x[::-1], axis=0)[::-1]`. -/
def discount (x : List ℚ) (γ : ℚ) : List ℚ :=
  (lfilterFirstOrder γ 0 x.reverse).reverse

/-- Right-to-left form of the same computation:
`y[t] = x[t] + γ * y[t+1]`, with `y` equal to `0` beyond the end. -/
def discountRec (γ : ℚ) : List ℚ → List ℚ
  | [] => []
  | a :: as => (a + γ * (discountRec γ as).getD 0 0) :: discountRec γ as

theorem lfilterFirstOrder_length (γ p : ℚ) (l : List ℚ) :
    (lfilterFirstOrder γ p l).length = l.length := by
  induction l generalizing p with
  | nil => rfl
  | cons a as ih => simp [lfilterFirstOrder, ih]

theorem lfilterFirstOrder_append_singleton (γ p a : ℚ) (l : List ℚ) :
    lfilterFirstOrder γ p (l ++ [a]) =
      lfilterFirstOrder γ p l ++ [a + γ * (lfilterFirstOrder γ p l).getLastD p] := by
  induction l generalizing p with
  | nil => simp [lfilterFirstOrder]
  | cons b bs ih =>
      simp only [List.cons_append, lfilterFirstOrder, List.getLastD_cons,
        List.append_eq]
      rw [ih]

theorem reverse_getD_zero (l : List ℚ) : l.reverse.getD 0 0 = l.getLastD 0 := by
  rw [List.getD_eq_getElem?_getD, ← List.head?_eq_getElem?, List.head?_reverse,
    List.getLastD_eq_getLast?]

theorem discount_eq_discountRec (γ : ℚ) (x : List ℚ) :
    discount x γ = discountRec γ x := by
  induction x with
  | nil => rfl
  | cons a as ih =>
      have h1 : discount (a :: as) γ =
          (a + γ * (lfilterFirstOrder γ 0 as.reverse).getLastD 0) :: discount as γ := by
        unfold discount
        rw [List.reverse_cons, lfilterFirstOrder_append_singleton,
          List.reverse_append]
        simp
      have h2 : (discountRec γ as).getD 0 0 =
          (lfilterFirstOrder γ 0 as.reverse).getLastD 0 := by
        rw [← ih]
        show (lfilterFirstOrder γ 0 as.reverse).reverse.getD 0 0 = _
        exact reverse_getD_zero _
      rw [h1, ih, ← h2]
      rfl

theorem discountRec_length (γ : ℚ) (x : List ℚ) :
    (discountRec γ x).length = x.length := by
  induction x with
  | nil => rfl
  | cons a as ih => simp [discountRec, ih]

theorem discount_length (x : List ℚ) (γ : ℚ) :
    (discount x γ).length = x.length := by
  rw [discount_eq_discountRec, discountRec_length]

/-- Index formula for the discounting engine:
`discount(x, γ)[t] = Σ_{k < T - t} γ^k * x[t+k]` (out-of-range reads are 0,
so the formula holds for every `t`). -/
theorem discountRec_getD (γ : ℚ) (x : List ℚ) (t : ℕ) :
    (discountRec γ x).getD t 0 =
      ∑ k ∈ Finset.range (x.length - t), γ ^ k * x.getD (t + k) 0 := by
  induction x generalizing t with
  | nil => simp [discountRec]
  | cons a as ih =>
      cases t with
      | zero =>
          simp only [discountRec, List.getD_cons_zero, List.length_cons,
            Nat.zero_add, Nat.sub_zero]
          rw [Finset.sum_range_succ']
          simp only [pow_succ, pow_zero, one_mul, List.getD_cons_succ,
            List.getD_cons_zero]
          rw [ih 0]
          simp only [Nat.sub_zero, Nat.zero_add]
          rw [add_comm, Finset.mul_sum]
          congr 1
          refine Finset.sum_congr rfl (fun k _ => ?_)
          ring
      | succ t =>
          simp only [discountRec, List.getD_cons_succ, List.length_cons,
            Nat.succ_sub_succ]
          rw [ih t]
          refine Finset.sum_congr rfl (fun k _ => ?_)
          have h : t + 1 + k = t + k + 1 := by omega
          rw [h, List.getD_cons_succ]

theorem discount_getD (x : List ℚ) (γ : ℚ) (t : ℕ) :
    (discount x γ).getD t 0 =
      ∑ k ∈ Finset.range (x.length - t), γ ^ k * x.getD (t + k) 0 := by
  rw [discount_eq_discountRec, discountRec_getD]

theorem discount_recurrence (x : List ℚ) (γ : ℚ) (t : ℕ) (ht : t < x.length) :
    (discount x γ).getD t 0 = x.getD t 0 + γ * (discount x γ).getD (t + 1) 0 := by
  rw [discount_getD, discount_getD]
  have hn : x.length - t = (x.length - (t + 1)) + 1 := by omega
  rw [hn, Finset.sum_range_succ']
  simp only [pow_zero, one_mul, Nat.add_zero]
  rw [add_comm (x.getD t 0), Finset.mul_sum]
  congr 1
  refine Finset.sum_congr rfl (fun k _ => ?_)
  have h : t + (k + 1) = t + 1 + k := by omega
  rw [h]
  ring

/-- C1: `discount(x, gamma)` preserves length and satisfies
`discount(x, gamma)[t] = Σ_{k=0..T-t-1} gamma^k * x[t+k]`, equivalently the
backward recurrence `y[t] = x[t] + gamma * y[t+1]` with `y = 0` beyond the
end; a zero sequence maps to all zeros, `gamma = 0` gives the identity, and
a constant sequence `c` gives `c * (1 - gamma^(T-t)) / (1 - gamma)` for
`gamma ≠ 1`. -/
theorem C1_discount_spec (x : List ℚ) (γ : ℚ) :
    (discount x γ).length = x.length
    ∧ (∀ t, (discount x γ).getD t 0 =
        ∑ k ∈ Finset.range (x.length - t), γ ^ k * x.getD (t + k) 0)
    ∧ (∀ t, t < x.length →
        (discount x γ).getD t 0 = x.getD t 0 + γ * (discount x γ).getD (t + 1) 0)
    ∧ ((∀ t, t < x.length → x.getD t 0 = 0) → ∀ t, (discount x γ).getD t 0 = 0)
    ∧ (∀ t, (discount x 0).getD t 0 = x.getD t 0)
    ∧ (∀ c, γ ≠ 1 → (∀ t, t < x.length → x.getD t 0 = c) →
        ∀ t, t < x.length →
          (discount x γ).getD t 0 = c * (1 - γ ^ (x.length - t)) / (1 - γ)) := by
  refine ⟨discount_length x γ, discount_getD x γ, discount_recurrence x γ,
    ?_, ?_, ?_⟩
  · intro h0 t
    rw [discount_getD]
    refine Finset.sum_eq_zero (fun k hk => ?_)
    have hk' : k < x.length - t := Finset.mem_range.mp hk
    rw [h0 (t + k) (by omega), mul_zero]
  · intro t
    rw [discount_getD]
    by_cases ht : t < x.length
    · have hn : x.length - t = (x.length - (t + 1)) + 1 := by omega
      rw [hn, Finset.sum_range_succ']
      have hz : ∀ k ∈ Finset.range (x.length - (t + 1)),
          (0 : ℚ) ^ (k + 1) * x.getD (t + (k + 1)) 0 = 0 := by
        intro k _
        rw [zero_pow (Nat.succ_ne_zero k), zero_mul]
      rw [Finset.sum_congr rfl hz]
      simp
    · have h1 : x.length - t = 0 := by omega
      have h2 : x.getD t 0 = 0 := List.getD_eq_default x 0 (by omega)
      rw [h1, h2]
      simp
  · intro c hγ hc t ht
    rw [discount_getD]
    have hterm : ∀ k ∈ Finset.range (x.length - t),
        γ ^ k * x.getD (t + k) 0 = γ ^ k * c := by
      intro k hk
      have hk' : k < x.length - t := Finset.mem_range.mp hk
      rw [hc (t + k) (by omega)]
    rw [Finset.sum_congr rfl hterm, ← Finset.sum_mul, geom_sum_eq hγ]
    have h1 : (1 : ℚ) - γ ≠ 0 := fun h => hγ (by linarith)
    have h2 : γ - 1 ≠ 0 := fun h => hγ (by linarith)
    field_simp
    ring

theorem C1_discount_spec_witness :
    ((discount [(5 : ℚ), 7] (1/2)).getD 0 0 =
        ([(5 : ℚ), 7]).getD 0 0 + (1/2) * (discount [(5 : ℚ), 7] (1/2)).getD 1 0)
    ∧ (discount [(0 : ℚ), 0] (1/3)).getD 0 0 = 0
    ∧ (discount [(4 : ℚ), 4] (1/2)).getD 0 0 = 4 * (1 - (1/2 : ℚ) ^ 2) / (1 - 1/2) := by
  refine ⟨(C1_discount_spec [5, 7] (1/2)).2.2.1 0 (by norm_num),
    (C1_discount_spec [0, 0] (1/3)).2.2.2.1
      (fun t ht => by
        simp only [List.length_cons, List.length_nil] at ht
        interval_cases t <;> rfl) 0,
    (C1_discount_spec [4, 4] (1/2)).2.2.2.2.2 4 (by norm_num)
      (fun t ht => by
        simp only [List.length_cons, List.length_nil] at ht
        interval_cases t <;> rfl) 0 (by norm_num)⟩

/-! ## `ActorCriticAgent.get_general_advantage_estimation_values` -/

/-- `ActorCriticAgent.get_general_advantage_estimation_values(rewards, values)`:
`values` has `n+1` elements, `rewards` has `n`.  Returns the pair
`(gae, discounted_returns)`. -/
def get_general_advantage_estimation_values (γ lam : ℚ)
    (estimate_state_value_using_gae : Bool)
    (rewards values : List ℚ) : List ℚ × List ℚ :=
  let bootstrap_extended_rewards := rewards ++ [values.getLastD 0]
  let deltas := List.zipWith (fun r p => r + γ * p.2 - p.1)
    rewards (values.dropLast.zip values.tail)
  let gae := discount deltas (γ * lam)
  let discounted_returns :=
    if estimate_state_value_using_gae then
      List.zipWith (fun a v => a + v) gae values.dropLast
    else
      (discount bootstrap_extended_rewards γ).dropLast
  (gae, discounted_returns)

/-- The TD residuals `δ[i] = reward[i] + γ·V[i+1] - V[i]`, written as the
spec states them (indexed form). -/
def tdResiduals (γ : ℚ) (rewards values : List ℚ) : List ℚ :=
  (List.range rewards.length).map
    (fun i => rewards.getD i 0 + γ * values.getD (i + 1) 0 - values.getD i 0)

theorem zip_deltas_eq_tdResiduals (γ : ℚ) (rewards values : List ℚ)
    (hlen : values.length = rewards.length + 1) :
    List.zipWith (fun r p => r + γ * p.2 - p.1)
        rewards (values.dropLast.zip values.tail)
      = tdResiduals γ rewards values := by
  apply List.ext_getElem
  · simp [tdResiduals, hlen]
  · intro i h1 h2
    have hi : i < rewards.length := by
      simp [hlen] at h1
      omega
    simp only [tdResiduals, List.getElem_zipWith, List.getElem_zip,
      List.getElem_map, List.getElem_range, List.getElem_dropLast,
      List.getElem_tail]
    rw [List.getD_eq_getElem rewards 0 hi,
      List.getD_eq_getElem values 0 (by omega),
      List.getD_eq_getElem values 0 (by omega)]

theorem gge_fst (γ lam : ℚ) (est : Bool) (rewards values : List ℚ) :
    (get_general_advantage_estimation_values γ lam est rewards values).1 =
      discount (List.zipWith (fun r p => r + γ * p.2 - p.1)
        rewards (values.dropLast.zip values.tail)) (γ * lam) := rfl

theorem gge_snd_true (γ lam : ℚ) (rewards values : List ℚ) :
    (get_general_advantage_estimation_values γ lam true rewards values).2 =
      List.zipWith (fun a v => a + v)
        (get_general_advantage_estimation_values γ lam true rewards values).1
        values.dropLast := rfl

theorem gge_snd_false (γ lam : ℚ) (rewards values : List ℚ) :
    (get_general_advantage_estimation_values γ lam false rewards values).2 =
      (discount (rewards ++ [values.getLastD 0]) γ).dropLast := rfl

theorem gge_fst_length (γ lam : ℚ) (est : Bool) (rewards values : List ℚ)
    (hlen : values.length = rewards.length + 1) :
    (get_general_advantage_estimation_values γ lam est rewards values).1.length
      = rewards.length := by
  rw [gge_fst, discount_length]
  simp [hlen]

theorem getLastD_eq_getD_of_length (l : List ℚ) (n : ℕ) (h : l.length = n + 1) :
    l.getLastD 0 = l.getD n 0 := by
  rw [List.getLastD_eq_getLast?, List.getLast?_eq_getElem?,
    List.getD_eq_getElem?_getD]
  simp [h]

theorem gge_false_target_getD (γ lam : ℚ) (rewards values : List ℚ)
    (hlen : values.length = rewards.length + 1) (i : ℕ) (hi : i < rewards.length) :
    (get_general_advantage_estimation_values γ lam false rewards values).2.getD i 0 =
      (discount (rewards ++ [values.getD rewards.length 0]) γ).getD i 0 := by
  rw [gge_snd_false, getLastD_eq_getD_of_length values rewards.length hlen]
  have hlen2 : ((discount (rewards ++ [values.getD rewards.length 0]) γ).dropLast).length
      = rewards.length := by
    simp [discount_length]
  have hlen3 : i < (discount (rewards ++ [values.getD rewards.length 0]) γ).length := by
    rw [discount_length]
    simp
    omega
  rw [List.getD_eq_getElem _ 0 (by omega), List.getD_eq_getElem _ 0 hlen3,
    List.getElem_dropLast]

theorem gge_true_target_getD (γ lam : ℚ) (rewards values : List ℚ)
    (hlen : values.length = rewards.length + 1) (i : ℕ) (hi : i < rewards.length) :
    (get_general_advantage_estimation_values γ lam true rewards values).2.getD i 0 =
      (get_general_advantage_estimation_values γ lam true rewards values).1.getD i 0
        + values.getD i 0 := by
  have hfst : (get_general_advantage_estimation_values γ lam true rewards values).1.length
      = rewards.length := gge_fst_length γ lam true rewards values hlen
  have hsnd : (get_general_advantage_estimation_values γ lam true rewards values).2.length
      = rewards.length := by
    rw [gge_snd_true]
    simp [hfst, hlen]
  rw [gge_snd_true]
  have hzlen : (List.zipWith (fun a v => a + v)
      (get_general_advantage_estimation_values γ lam true rewards values).1
      values.dropLast).length = rewards.length := by
    simp [hfst, hlen]
  rw [List.getD_eq_getElem _ 0 (by omega), List.getElem_zipWith,
    List.getElem_dropLast, ← List.getD_eq_getElem _ 0, ← List.getD_eq_getElem _ 0]

/-- C2: `get_general_advantage_estimation_values` returns
`advantage = discount(δ, γλ)` for the TD residuals
`δ[i] = reward[i] + γ·V[i+1] - V[i]`; the targets are
`advantage[i] + V[i]` when `estimate_state_value_using_gae` and the first
`N` entries of `discount(rewards ++ [V[N]], γ)` otherwise; on
`γ=0.99, λ=0.95, rewards=[2,3], V=[1,1,0]` the advantages are `[3.871, 2]`. -/
theorem C2_gae_spec (γ lam : ℚ) (est : Bool) (rewards values : List ℚ)
    (hlen : values.length = rewards.length + 1) :
    (get_general_advantage_estimation_values γ lam est rewards values).1 =
        discount (tdResiduals γ rewards values) (γ * lam)
    ∧ (∀ i, i < rewards.length →
        (get_general_advantage_estimation_values γ lam true rewards values).2.getD i 0 =
          (get_general_advantage_estimation_values γ lam true rewards values).1.getD i 0
            + values.getD i 0)
    ∧ (∀ i, i < rewards.length →
        (get_general_advantage_estimation_values γ lam false rewards values).2.getD i 0 =
          (discount (rewards ++ [values.getD rewards.length 0]) γ).getD i 0)
    ∧ (get_general_advantage_estimation_values (99/100) (19/20) est
        [2, 3] [1, 1, 0]).1 = [3871/1000, 2] := by
  refine ⟨?_, gge_true_target_getD γ lam rewards values hlen,
    gge_false_target_getD γ lam rewards values hlen, ?_⟩
  · rw [gge_fst, zip_deltas_eq_tdResiduals γ rewards values hlen]
  · cases est <;>
      norm_num [get_general_advantage_estimation_values, discount, lfilterFirstOrder]

theorem C2_gae_spec_witness :
    ((get_general_advantage_estimation_values (99/100) (19/20) true
        [2, 3] [1, 1, 0]).2.getD 0 0 =
      (get_general_advantage_estimation_values (99/100) (19/20) true
        [2, 3] [1, 1, 0]).1.getD 0 0 + ([(1 : ℚ), 1, 0]).getD 0 0)
    ∧ (get_general_advantage_estimation_values (99/100) (19/20) false
        [2, 3] [1, 1, 0]).2.getD 1 0 =
      (discount ([(2 : ℚ), 3] ++ [([(1 : ℚ), 1, 0]).getD 2 0]) (99/100)).getD 1 0
    ∧ (get_general_advantage_estimation_values (99/100) (19/20) true
        [2, 3] [1, 1, 0]).1 = [3871/1000, 2] :=
  ⟨(C2_gae_spec (99/100) (19/20) true [2, 3] [1, 1, 0] (by rfl)).2.1 0 (by norm_num),
   (C2_gae_spec (99/100) (19/20) true [2, 3] [1, 1, 0] (by rfl)).2.2.1 1 (by norm_num),
   (C2_gae_spec (99/100) (19/20) true [2, 3] [1, 1, 0] (by rfl)).2.2.2⟩

/-- C8: with `λ = 1` and `estimate_state_value_using_gae = false`, the
returned target is the plain bootstrapped discounted return
`discount(rewards ++ [V[N]], γ)[i]` for every `i < N` (written out as the
discounted sum). -/
theorem C8_lambda_one_plain_return (γ : ℚ) (rewards values : List ℚ)
    (hlen : values.length = rewards.length + 1) (i : ℕ) (hi : i < rewards.length) :
    (get_general_advantage_estimation_values γ 1 false rewards values).2.getD i 0 =
      ∑ k ∈ Finset.range (rewards.length + 1 - i),
        γ ^ k * (rewards ++ [values.getD rewards.length 0]).getD (i + k) 0 := by
  rw [gge_false_target_getD γ 1 rewards values hlen i hi, discount_getD]
  have h : (rewards ++ [values.getD rewards.length 0]).length = rewards.length + 1 := by
    simp
  rw [h]

theorem C8_lambda_one_plain_return_witness :
    (get_general_advantage_estimation_values (9/10) 1 false [1, 2] [0, 0, 5]).2.getD 0 0 =
      ∑ k ∈ Finset.range 3,
        (9/10 : ℚ) ^ k * ([(1 : ℚ), 2] ++ [([(0 : ℚ), 0, 5]).getD 2 0]).getD (0 + k) 0 :=
  C8_lambda_one_plain_return (9/10) [1, 2] [0, 0, 5] (by rfl) 0 (by norm_num)

/-! ## `ActorCriticAgent.learn_from_batch` -/

/-- The backward loop of `learn_from_batch`:
`for i in reversed(range(num_transitions)): R = rewards[i] + γ * R`,
started from the bootstrap `R`.  Element `i` of the result holds the value
of `R` after processing index `i`. -/
def discountedReturnsFrom (γ R : ℚ) : List ℚ → List ℚ
  | [] => []
  | r :: rs =>
    let rest := discountedReturnsFrom γ R rs
    (r + γ * rest.headD R) :: rest

/-- The `A_VALUE` branch of `ActorCriticAgent.learn_from_batch`: bootstrap
`R = 0` when the batch's last `game_over` is set, else the network's
prediction at the state following the last transition; returns
`(state_value_head_targets, action_advantages)`. -/
def learn_from_batch_A_VALUE (γ : ℚ) (rewards current_state_values : List ℚ)
    (game_overs : List Bool) (predicted_next_value : ℚ) : List ℚ × List ℚ :=
  let R := if game_overs.getLastD true then 0 else predicted_next_value
  let targets := discountedReturnsFrom γ R rewards
  (targets, List.zipWith (fun t v => t - v) targets current_state_values)

theorem discountedReturnsFrom_length (γ R : ℚ) (l : List ℚ) :
    (discountedReturnsFrom γ R l).length = l.length := by
  induction l with
  | nil => rfl
  | cons r rs ih => simp [discountedReturnsFrom, ih]

theorem discountedReturnsFrom_getD (γ R : ℚ) (l : List ℚ) (i : ℕ)
    (hi : i < l.length) :
    (discountedReturnsFrom γ R l).getD i 0 =
      l.getD i 0 + γ * (if i + 1 < l.length
        then (discountedReturnsFrom γ R l).getD (i + 1) 0 else R) := by
  induction l generalizing i with
  | nil => simp at hi
  | cons r rs ih =>
      cases i with
      | zero =>
          cases rs with
          | nil => simp [discountedReturnsFrom]
          | cons s ss =>
              rw [if_pos (show 0 + 1 < (r :: s :: ss).length by simp)]
              simp [discountedReturnsFrom]
      | succ i =>
          have hi' : i < rs.length := by
            simp at hi
            omega
          simp only [discountedReturnsFrom, List.getD_cons_succ,
            List.length_cons, Nat.add_lt_add_iff_right]
          exact ih i hi'

theorem learnA_fst (γ : ℚ) (rewards values : List ℚ) (game_overs : List Bool)
    (p : ℚ) :
    (learn_from_batch_A_VALUE γ rewards values game_overs p).1 =
      discountedReturnsFrom γ (if game_overs.getLastD true then 0 else p)
        rewards := rfl

/-- C3: in `A_VALUE` mode the value targets follow the backward recursion
`R := reward[i] + γ * R` started from `0` (terminal last transition) or the
predicted next-state value, and each advantage is the target minus the
predicted state value; for `rewards = [1,1,1]`, `γ = 0.9`, terminal end,
zero predictions, targets and advantages are `[2.71, 1.9, 1]`. -/
theorem C3_a_value_spec (γ : ℚ) (rewards values : List ℚ)
    (game_overs : List Bool) (predicted : ℚ)
    (hv : values.length = rewards.length) :
    (learn_from_batch_A_VALUE γ rewards values game_overs predicted).1.length
        = rewards.length
    ∧ (∀ i, i < rewards.length →
        (learn_from_batch_A_VALUE γ rewards values game_overs predicted).1.getD i 0 =
          rewards.getD i 0 + γ *
            (if i + 1 < rewards.length then
              (learn_from_batch_A_VALUE γ rewards values game_overs predicted).1.getD
                (i + 1) 0
            else if game_overs.getLastD true then 0 else predicted))
    ∧ (∀ i, i < rewards.length →
        (learn_from_batch_A_VALUE γ rewards values game_overs predicted).2.getD i 0 =
          (learn_from_batch_A_VALUE γ rewards values game_overs predicted).1.getD i 0
            - values.getD i 0)
    ∧ learn_from_batch_A_VALUE (9/10) [1, 1, 1] [0, 0, 0] [false, false, true] 5 =
        ([271/100, 19/10, 1], [271/100, 19/10, 1]) := by
  refine ⟨?_, ?_, ?_, ?_⟩
  · rw [learnA_fst, discountedReturnsFrom_length]
  · intro i hi
    rw [learnA_fst]
    exact discountedReturnsFrom_getD γ _ rewards i hi
  · intro i hi
    rw [learnA_fst]
    show (List.zipWith (fun t v => t - v)
      (discountedReturnsFrom γ _ rewards) values).getD i 0 = _
    have hzlen : (List.zipWith (fun t v => t - v)
        (discountedReturnsFrom γ (if game_overs.getLastD true then 0 else predicted)
          rewards) values).length = rewards.length := by
      simp [discountedReturnsFrom_length, hv]
    rw [List.getD_eq_getElem _ 0 (by omega), List.getElem_zipWith,
      ← List.getD_eq_getElem _ 0, ← List.getD_eq_getElem _ 0]
  · norm_num [learn_from_batch_A_VALUE, discountedReturnsFrom]

theorem C3_a_value_spec_witness :
    ((learn_from_batch_A_VALUE (9/10) [1, 1, 1] [0, 0, 0] [false, false, true] 5).1.getD 0 0 =
      ([(1 : ℚ), 1, 1]).getD 0 0 + (9/10) *
        (if 0 + 1 < ([(1 : ℚ), 1, 1]).length then
          (learn_from_batch_A_VALUE (9/10) [1, 1, 1] [0, 0, 0]
            [false, false, true] 5).1.getD (0 + 1) 0
        else if ([false, false, true]).getLastD true then 0 else 5))
    ∧ ((learn_from_batch_A_VALUE (9/10) [1, 1, 1] [0, 0, 0] [false, false, true] 5).2.getD 0 0 =
      (learn_from_batch_A_VALUE (9/10) [1, 1, 1] [0, 0, 0] [false, false, true] 5).1.getD 0 0
        - ([(0 : ℚ), 0, 0]).getD 0 0)
    ∧ learn_from_batch_A_VALUE (9/10) [1, 1, 1] [0, 0, 0] [false, false, true] 5 =
        ([271/100, 19/10, 1], [271/100, 19/10, 1]) :=
  ⟨(C3_a_value_spec (9/10) [1, 1, 1] [0, 0, 0] [false, false, true] 5 (by rfl)).2.1
      0 (by norm_num),
   (C3_a_value_spec (9/10) [1, 1, 1] [0, 0, 0] [false, false, true] 5 (by rfl)).2.2.1
      0 (by norm_num),
   (C3_a_value_spec (9/10) [1, 1, 1] [0, 0, 0] [false, false, true] 5 (by rfl)).2.2.2⟩

/-- The policy-gradient rescaler modes dispatched by
`ActorCriticAgent.learn_from_batch` (the enum itself lives in
`agents/policy_optimization_agent.py`; `UNRECOGNIZED` stands for any other
member, which takes the warning branch). -/
inductive PolicyGradientRescaler
  | A_VALUE
  | CUSTOM_ACTOR_CRITIC
  | GAE
  | UNRECOGNIZED

/-- The advantage/target computation of `ActorCriticAgent.learn_from_batch`
for each rescaler mode: returns
`(state_value_head_targets, action_advantages)`.  `predicted_next_value` is
the online network's value prediction at the state following the last
transition, `custom_next_value` the external critic's value for it; on an
unrecognized mode both arrays keep their `np.zeros` initialization. -/
def learn_from_batch_adv (mode : PolicyGradientRescaler) (γ lam : ℚ)
    (est : Bool) (rewards current_state_values : List ℚ)
    (game_overs : List Bool)
    (predicted_next_value custom_next_value : ℚ) : List ℚ × List ℚ :=
  match mode with
  | .A_VALUE =>
      learn_from_batch_A_VALUE γ rewards current_state_values game_overs
        predicted_next_value
  | .CUSTOM_ACTOR_CRITIC =>
      learn_from_batch_A_VALUE γ rewards current_state_values game_overs
        custom_next_value
  | .GAE =>
      let bootstrapped_value :=
        if game_overs.getLastD true then 0 else predicted_next_value
      let p := get_general_advantage_estimation_values γ lam est rewards
        (current_state_values ++ [bootstrapped_value])
      (p.2, p.1)
  | .UNRECOGNIZED =>
      (List.replicate rewards.length 0, List.replicate rewards.length 0)

/-- C10: `learn_from_batch` does no episode splitting — in every rescaler
mode it reads only the final `game_over` flag, so two batches that differ
only in interior `game_over` flags produce identical advantages and value
targets. -/
theorem C10_interior_game_overs_ignored (mode : PolicyGradientRescaler)
    (γ lam : ℚ) (est : Bool) (rewards values : List ℚ)
    (g1 g2 : List Bool) (p c : ℚ)
    (h : g1.getLastD true = g2.getLastD true) :
    learn_from_batch_adv mode γ lam est rewards values g1 p c =
      learn_from_batch_adv mode γ lam est rewards values g2 p c := by
  rw [List.getLastD_eq_getLast?, List.getLastD_eq_getLast?] at h
  cases mode <;>
    simp [learn_from_batch_adv, learn_from_batch_A_VALUE,
      List.getLastD_eq_getLast?, h]

theorem C10_interior_game_overs_ignored_witness :
    learn_from_batch_adv .A_VALUE (1/2) (19/20) true [1, 2] [0, 0]
        [true, false] 3 4 =
      learn_from_batch_adv .A_VALUE (1/2) (19/20) true [1, 2] [0, 0]
        [false, false] 3 4 :=
  C10_interior_game_overs_ignored .A_VALUE (1/2) (19/20) true [1, 2] [0, 0]
    [true, false] [false, false] 3 4 (by rfl)

/-! ## `ClippedPPOAgent.fill_advantages` (GAE mode) -/

/-- One rollout of the GAE branch of `fill_advantages`: the window's
rewards with its predicted state values, extended by the zero
`value_bootstrapping`, fed to `get_general_advantage_estimation_values`. -/
def rolloutGAE (γ lam : ℚ) (est : Bool) (window : List (ℚ × ℚ)) :
    List ℚ × List ℚ :=
  get_general_advantage_estimation_values γ lam est
    (window.map Prod.fst) ((window.map Prod.snd) ++ [0])

/-- The `for idx, game_over in enumerate(batch.game_overs())` loop of
`fill_advantages`: each transition carries its `(reward, state value)` pair
and its `game_over` flag; `pending` holds the transitions since
`episode_start_idx`.  On `game_over` the rollout's advantages and value
targets are appended; a trailing run without a `game_over` is never
processed. -/
def fill_advantages_loop (γ lam : ℚ) (est : Bool) :
    List (ℚ × ℚ) → List ((ℚ × ℚ) × Bool) → List ℚ × List ℚ
  | _, [] => ([], [])
  | pending, (rv, game_over) :: rest =>
    if game_over then
      let rollout := rolloutGAE γ lam est (pending ++ [rv])
      let tail := fill_advantages_loop γ lam est [] rest
      (rollout.1 ++ tail.1, rollout.2 ++ tail.2)
    else
      fill_advantages_loop γ lam est (pending ++ [rv]) rest

/-- The advantage/value-target computation of `fill_advantages` in GAE
mode, before standardization. -/
def fill_advantages_GAE (γ lam : ℚ) (est : Bool)
    (transitions : List ((ℚ × ℚ) × Bool)) : List ℚ × List ℚ :=
  fill_advantages_loop γ lam est [] transitions

theorem fill_loop_all_false (γ lam : ℚ) (est : Bool)
    (pending : List (ℚ × ℚ)) (l : List ((ℚ × ℚ) × Bool))
    (hall : ∀ y ∈ l, y.2 = false) :
    fill_advantages_loop γ lam est pending l = ([], []) := by
  induction l generalizing pending with
  | nil => rfl
  | cons y l ih =>
      obtain ⟨rv, go⟩ := y
      have hy : go = false := hall (rv, go) (by simp)
      subst hy
      simp only [fill_advantages_loop, Bool.false_eq_true, if_false]
      exact ih _ (fun z hz => hall z (by simp [hz]))

theorem fill_loop_drop_trailing (γ lam : ℚ) (est : Bool)
    (trs tail : List ((ℚ × ℚ) × Bool))
    (htail : ∀ y ∈ tail, y.2 = false) :
    ∀ pending, fill_advantages_loop γ lam est pending (trs ++ tail) =
      fill_advantages_loop γ lam est pending trs := by
  induction trs with
  | nil =>
      intro pending
      rw [List.nil_append, fill_loop_all_false γ lam est pending tail htail]
      rfl
  | cons y trs ih =>
      intro pending
      obtain ⟨rv, go⟩ := y
      cases go with
      | false =>
          simp only [List.cons_append, fill_advantages_loop,
            Bool.false_eq_true, if_false]
          exact ih _
      | true =>
          simp only [List.cons_append, fill_advantages_loop, if_true,
            List.append_eq]
          rw [ih []]

theorem fill_loop_episode (γ lam : ℚ) (est : Bool)
    (l : List ((ℚ × ℚ) × Bool)) (rv : ℚ × ℚ)
    (rest : List ((ℚ × ℚ) × Bool)) (hl : ∀ y ∈ l, y.2 = false) :
    ∀ pending, fill_advantages_loop γ lam est pending (l ++ ((rv, true) :: rest)) =
      ((rolloutGAE γ lam est (pending ++ l.map Prod.fst ++ [rv])).1 ++
        (fill_advantages_loop γ lam est [] rest).1,
       (rolloutGAE γ lam est (pending ++ l.map Prod.fst ++ [rv])).2 ++
        (fill_advantages_loop γ lam est [] rest).2) := by
  induction l with
  | nil =>
      intro pending
      simp [fill_advantages_loop]
  | cons y l ih =>
      intro pending
      obtain ⟨d, b⟩ := y
      have hb : b = false := hl (d, b) (by simp)
      subst hb
      simp only [List.cons_append, fill_advantages_loop,
        Bool.false_eq_true, if_false, List.append_eq]
      rw [ih (fun z hz => hl z (by simp [hz])) (pending ++ [d])]
      simp [List.append_assoc]

theorem gge_snd_length (γ lam : ℚ) (est : Bool) (rewards values : List ℚ)
    (hlen : values.length = rewards.length + 1) :
    (get_general_advantage_estimation_values γ lam est rewards values).2.length
      = rewards.length := by
  cases est
  · rw [gge_snd_false]
    simp [discount_length, hlen]
  · rw [gge_snd_true]
    simp [gge_fst_length γ lam true rewards values hlen, hlen]

theorem rolloutGAE_fst_length (γ lam : ℚ) (est : Bool)
    (window : List (ℚ × ℚ)) :
    (rolloutGAE γ lam est window).1.length = window.length := by
  rw [rolloutGAE, gge_fst_length γ lam est _ _ (by simp)]
  simp

theorem rolloutGAE_snd_length (γ lam : ℚ) (est : Bool)
    (window : List (ℚ × ℚ)) :
    (rolloutGAE γ lam est window).2.length = window.length := by
  rw [rolloutGAE, gge_snd_length γ lam est _ _ (by simp)]
  simp

theorem fill_loop_terminal_length (γ lam : ℚ) (est : Bool)
    (trs : List ((ℚ × ℚ) × Bool)) (x : (ℚ × ℚ) × Bool) (hx : x.2 = true) :
    ∀ pending,
      (fill_advantages_loop γ lam est pending (trs ++ [x])).1.length =
          pending.length + trs.length + 1
      ∧ (fill_advantages_loop γ lam est pending (trs ++ [x])).2.length =
          pending.length + trs.length + 1 := by
  obtain ⟨rv, b⟩ := x
  have hb : b = true := hx
  subst hb
  induction trs with
  | nil =>
      intro pending
      simp [fill_advantages_loop, rolloutGAE_fst_length, rolloutGAE_snd_length]
  | cons y trs ih =>
      intro pending
      obtain ⟨d, b⟩ := y
      cases b with
      | false =>
          simp only [List.cons_append, fill_advantages_loop,
            Bool.false_eq_true, if_false, List.append_eq]
          have h := ih (pending ++ [d])
          simp only [List.length_append, List.length_cons,
            List.length_singleton, List.length_nil, List.append_eq] at h ⊢
          omega
      | true =>
          simp only [List.cons_append, fill_advantages_loop, if_true,
            List.append_eq, List.length_append, rolloutGAE_fst_length,
            rolloutGAE_snd_length, List.length_cons, List.length_singleton,
            List.length_nil]
          have h := ih []
          simp only [List.length_nil, List.length_append, List.length_cons,
            List.length_singleton] at h
          omega

/-- C5 is false as stated: in a two-transition batch whose `game_over`
flags are `[true, false]`, the trailing transition is after the last
`game_over` and receives no advantage — only one advantage is produced,
not two. -/
theorem C5_counterexample :
    ((fill_advantages_GAE (99/100) (19/20) true
      [(((1 : ℚ), (0 : ℚ)), true), (((1 : ℚ), (0 : ℚ)), false)]).1).length ≠ 2 := by
  decide

/-- C5 (amended): every estimation window of `fill_advantages` in GAE mode
ends at a transition with `game_over = true`; a trailing run with no set
`game_over` flag is dropped entirely, while a batch ending in a terminal
transition assigns an advantage and a value target to every transition. -/
theorem C5_windows_end_at_game_over (γ lam : ℚ) (est : Bool)
    (trs tail : List ((ℚ × ℚ) × Bool)) (x : (ℚ × ℚ) × Bool)
    (htail : ∀ y ∈ tail, y.2 = false) (hx : x.2 = true) :
    fill_advantages_GAE γ lam est (trs ++ tail) = fill_advantages_GAE γ lam est trs
    ∧ (fill_advantages_GAE γ lam est (trs ++ [x])).1.length = trs.length + 1
    ∧ (fill_advantages_GAE γ lam est (trs ++ [x])).2.length = trs.length + 1 := by
  refine ⟨fill_loop_drop_trailing γ lam est trs tail htail [], ?_, ?_⟩
  · have h := (fill_loop_terminal_length γ lam est trs x hx []).1
    simpa using h
  · have h := (fill_loop_terminal_length γ lam est trs x hx []).2
    simpa using h

theorem C5_windows_end_at_game_over_witness :
    fill_advantages_GAE (1/2) 1 true
        ([(((1 : ℚ), (0 : ℚ)), true)] ++ [(((2 : ℚ), (0 : ℚ)), false)]) =
      fill_advantages_GAE (1/2) 1 true [(((1 : ℚ), (0 : ℚ)), true)]
    ∧ (fill_advantages_GAE (1/2) 1 true
        ([(((1 : ℚ), (0 : ℚ)), true)] ++ [(((3 : ℚ), (0 : ℚ)), true)])).1.length = 2
    ∧ (fill_advantages_GAE (1/2) 1 true
        ([(((1 : ℚ), (0 : ℚ)), true)] ++ [(((3 : ℚ), (0 : ℚ)), true)])).2.length = 2 :=
  C5_windows_end_at_game_over (1/2) 1 true
    [(((1 : ℚ), (0 : ℚ)), true)] [(((2 : ℚ), (0 : ℚ)), false)]
    (((3 : ℚ), (0 : ℚ)), true) (by decide) (by decide)

/-- C6: for a batch made of two complete episodes (interior `game_over`
flags false, final flag of each episode true), the advantages and value
targets computed by `fill_advantages` over the whole batch equal the
concatenation of those computed independently on each episode (each with
the same zero bootstrap the code always uses). -/
theorem C6_episode_concat (γ lam : ℚ) (est : Bool)
    (l1 l2 : List ((ℚ × ℚ) × Bool)) (x1 x2 : ℚ × ℚ)
    (h1 : ∀ y ∈ l1, y.2 = false) (h2 : ∀ y ∈ l2, y.2 = false) :
    (fill_advantages_GAE γ lam est
        ((l1 ++ [(x1, true)]) ++ (l2 ++ [(x2, true)]))).1 =
      (fill_advantages_GAE γ lam est (l1 ++ [(x1, true)])).1 ++
        (fill_advantages_GAE γ lam est (l2 ++ [(x2, true)])).1
    ∧ (fill_advantages_GAE γ lam est
        ((l1 ++ [(x1, true)]) ++ (l2 ++ [(x2, true)]))).2 =
      (fill_advantages_GAE γ lam est (l1 ++ [(x1, true)])).2 ++
        (fill_advantages_GAE γ lam est (l2 ++ [(x2, true)])).2 := by
  have hsplit : (l1 ++ [(x1, true)]) ++ (l2 ++ [(x2, true)]) =
      l1 ++ ((x1, true) :: (l2 ++ [(x2, true)])) := by
    simp
  have he1 : l1 ++ [(x1, true)] = l1 ++ ((x1, true) :: ([] : List ((ℚ × ℚ) × Bool))) := rfl
  have he2 : l2 ++ [(x2, true)] = l2 ++ ((x2, true) :: ([] : List ((ℚ × ℚ) × Bool))) := rfl
  unfold fill_advantages_GAE
  rw [hsplit, fill_loop_episode γ lam est l1 x1 _ h1 [],
    he1, fill_loop_episode γ lam est l1 x1 _ h1 [],
    he2, fill_loop_episode γ lam est l2 x2 _ h2 []]
  simp [fill_advantages_loop]

theorem C6_episode_concat_witness :
    (fill_advantages_GAE (1/2) 1 true
        (([(((1 : ℚ), (0 : ℚ)), false)] ++ [(((2 : ℚ), (0 : ℚ)), true)]) ++
          ([] ++ [(((3 : ℚ), (5 : ℚ)), true)]))).1 =
      (fill_advantages_GAE (1/2) 1 true
        ([(((1 : ℚ), (0 : ℚ)), false)] ++ [(((2 : ℚ), (0 : ℚ)), true)])).1 ++
        (fill_advantages_GAE (1/2) 1 true ([] ++ [(((3 : ℚ), (5 : ℚ)), true)])).1
    ∧ (fill_advantages_GAE (1/2) 1 true
        (([(((1 : ℚ), (0 : ℚ)), false)] ++ [(((2 : ℚ), (0 : ℚ)), true)]) ++
          ([] ++ [(((3 : ℚ), (5 : ℚ)), true)]))).2 =
      (fill_advantages_GAE (1/2) 1 true
        ([(((1 : ℚ), (0 : ℚ)), false)] ++ [(((2 : ℚ), (0 : ℚ)), true)])).2 ++
        (fill_advantages_GAE (1/2) 1 true ([] ++ [(((3 : ℚ), (5 : ℚ)), true)])).2 :=
  C6_episode_concat (1/2) 1 true
    [(((1 : ℚ), (0 : ℚ)), false)] [] ((2 : ℚ), (0 : ℚ)) ((3 : ℚ), (5 : ℚ))
    (by decide) (by decide)

/-! ## `ClippedPPOAgent.train_network`: minibatch partition -/

/-- The index ranges visited by one optimization epoch of
`train_network`: `for i in range(int(batch.size / batch_size)):
start = i * batch_size; end = (i + 1) * batch_size`.
`B` is `batch.size`, `M` the configured minibatch size. -/
def train_network_minibatch_ranges (B M : ℕ) : List (ℕ × ℕ) :=
  (List.range (B / M)).map (fun i => (i * M, (i + 1) * M))

/-- C7: each epoch processes exactly `⌊B/M⌋` minibatches, the `i`-th
covering `[i*M, (i+1)*M)`; together they cover exactly the first
`M*⌊B/M⌋` positions, each in exactly one minibatch, and the trailing
`B mod M` positions are covered by none. -/
theorem C7_minibatch_partition (B M : ℕ) (hM : 0 < M) :
    (train_network_minibatch_ranges B M).length = B / M
    ∧ (∀ i, i < B / M →
        (train_network_minibatch_ranges B M).getD i (0, 0) = (i * M, (i + 1) * M))
    ∧ (∀ j, (∃ p ∈ train_network_minibatch_ranges B M, p.1 ≤ j ∧ j < p.2)
        ↔ j < M * (B / M))
    ∧ (∀ j, M * (B / M) ≤ j → j < B →
        ¬ ∃ p ∈ train_network_minibatch_ranges B M, p.1 ≤ j ∧ j < p.2)
    ∧ (∀ j p q, p ∈ train_network_minibatch_ranges B M →
        q ∈ train_network_minibatch_ranges B M →
        p.1 ≤ j → j < p.2 → q.1 ≤ j → j < q.2 → p = q) := by
  have hiff : ∀ j, (∃ p ∈ train_network_minibatch_ranges B M, p.1 ≤ j ∧ j < p.2)
      ↔ j < M * (B / M) := by
    intro j
    constructor
    · rintro ⟨p, hp, hp1, hp2⟩
      rw [train_network_minibatch_ranges, List.mem_map] at hp
      obtain ⟨i, hi, rfl⟩ := hp
      rw [List.mem_range] at hi
      have h1 : i + 1 ≤ B / M := hi
      have h2 : (i + 1) * M ≤ (B / M) * M := Nat.mul_le_mul_right M h1
      calc j < (i + 1) * M := hp2
        _ ≤ (B / M) * M := h2
        _ = M * (B / M) := Nat.mul_comm _ _
    · intro hj
      refine ⟨(j / M * M, (j / M + 1) * M), ?_, ?_, ?_⟩
      · rw [train_network_minibatch_ranges, List.mem_map]
        refine ⟨j / M, List.mem_range.mpr ?_, rfl⟩
        rw [Nat.div_lt_iff_lt_mul hM]
        calc j < M * (B / M) := hj
          _ = (B / M) * M := Nat.mul_comm _ _
      · exact Nat.div_mul_le_self j M
      · have hmod : j % M < M := Nat.mod_lt j hM
        have hdm : M * (j / M) + j % M = j := Nat.div_add_mod j M
        calc j = M * (j / M) + j % M := hdm.symm
          _ < M * (j / M) + M := by omega
          _ = (j / M + 1) * M := by ring
  refine ⟨by simp [train_network_minibatch_ranges], ?_, hiff, ?_, ?_⟩
  · intro i hi
    have hlen : i < (train_network_minibatch_ranges B M).length := by
      simpa [train_network_minibatch_ranges] using hi
    rw [List.getD_eq_getElem _ _ hlen]
    simp [train_network_minibatch_ranges]
  · intro j hj1 _ hcov
    have := (hiff j).mp hcov
    omega
  · intro j p q hp hq hp1 hp2 hq1 hq2
    rw [train_network_minibatch_ranges, List.mem_map] at hp hq
    obtain ⟨i1, hi1, rfl⟩ := hp
    obtain ⟨i2, hi2, rfl⟩ := hq
    suffices h : i1 = i2 by rw [h]
    rcases lt_trichotomy i1 i2 with h | h | h
    · exfalso
      have : (i1 + 1) * M ≤ i2 * M := Nat.mul_le_mul_right M h
      omega
    · exact h
    · exfalso
      have : (i2 + 1) * M ≤ i1 * M := Nat.mul_le_mul_right M h
      omega

theorem C7_minibatch_partition_witness :
    (train_network_minibatch_ranges 5 2).getD 1 (0, 0) = (2, 4)
    ∧ ¬ ∃ p ∈ train_network_minibatch_ranges 5 2, p.1 ≤ 4 ∧ 4 < p.2 :=
  ⟨(C7_minibatch_partition 5 2 (by norm_num)).2.1 1 (by norm_num),
   (C7_minibatch_partition 5 2 (by norm_num)).2.2.2.1 4 (by norm_num) (by norm_num)⟩

/-- The entries appended to each of `train_network`'s per-epoch loss
accumulators (`loss['fetch_result']`, `loss['policy_losses']`, ...): one
per inner minibatch iteration, represented by its iteration index. -/
def epoch_loss_entries (B M : ℕ) : List ℕ := List.range (B / M)

/-- C9: with fewer transitions than one minibatch the inner loop of
`train_network` runs zero iterations, the per-epoch accumulators stay
empty, and reading their first element (`loss['fetch_result'][0]`,
`loss['policy_losses'][0]`) is an out-of-range access — the call faults
instead of completing. -/
theorem C9_small_batch_out_of_range (B M : ℕ) (hM : 0 < M) (hB : B < M) :
    epoch_loss_entries B M = []
    ∧ (epoch_loss_entries B M).get? 0 = none := by
  have h : B / M = 0 := Nat.div_eq_of_lt hB
  constructor <;> simp [epoch_loss_entries, h]

theorem C9_small_batch_out_of_range_witness :
    epoch_loss_entries 3 5 = [] ∧ (epoch_loss_entries 3 5).get? 0 = none :=
  C9_small_batch_out_of_range 3 5 (by norm_num) (by norm_num)

/-! ## `ClippedPPOAgent.fill_advantages`: standardization -/

/-- `np.mean` of a rational sequence (population mean). -/
def npMean (l : List ℚ) : ℚ := l.sum / l.length

/-- The population variance; `np.std(l)` is its (nonnegative) square root,
and it is by this standard deviation that `fill_advantages` divides:
`advantages = (advantages - np.mean(advantages)) / np.std(advantages)`,
with no epsilon floor. -/
def npVariance (l : List ℚ) : ℚ :=
  ((l.map (fun x => (x - npMean l) ^ 2)).sum) / l.length

/-- C4 fails on the code: for the constant advantage array `[1, 1]` the
standardization divisor `np.std` is `√0 = 0` while the centered numerators
are `[0, 0]`, so the unguarded division computes `0/0 = NaN` for every
entry — no epsilon floor exists in `fill_advantages`. -/
theorem C4_zero_std_on_constant :
    npVariance [1, 1] = 0
    ∧ ([(1 : ℚ), 1]).map (fun x => x - npMean [1, 1]) = [0, 0] := by
  constructor <;> norm_num [npVariance, npMean]

end Coach
